import Mathlib

set_option maxRecDepth 1000000

/-!
Shallow embedding of `src/GLUS/src/glus_memory_no_dm.c`, the GLUS static
memory allocator, together with proofs settling the specification claims.

Modelling conventions:
* `size_t` values are `Nat` with an explicit `% 2 ^ 64` wherever the C
  arithmetic can wrap (rounding at line 174, additions at lines 150/152/195,
  subtraction at line 195).
* Pointers are modelled numerically: the address of `g_memory` is an
  arbitrary `base : Nat`, the address of `g_memory[i]` is `base + 4 * i`,
  and the null pointer is `0`.  The C expression `(void*)g_memory[startIndex]`
  (line 111) casts the *value* stored in the arena word to a pointer, so it
  is modelled as `s.memory startIndex`.
* The mutable globals `g_memory`, `g_memoryTable`, `g_memoryTableEntries`
  become the fields of `GlusState`; every C function becomes a state
  transformer.
-/

namespace GLUS

/-- `2 ^ 64`, the modulus of `size_t` arithmetic. -/
def W64 : Nat := 2 ^ 64

/-- `GLUS_MEMORY_SIZE` (line 22): number of `uint32_t` words in the arena. -/
def GLUS_MEMORY_SIZE : Nat := 16 * 1024 * 1024 / 4

/-- `GLUS_MEMORY_TABLE_ENTRIES` (line 25). -/
def GLUS_MEMORY_TABLE_ENTRIES : Nat := 1024

/-- One entry of the memory table (struct `_GLUSmemoryTable`, lines 30-57). -/
structure GLUSmemoryTable where
  valid : Bool
  free : Bool
  startIndex : Nat
  length : Nat
  pointer : Nat
deriving DecidableEq

/-- The allocator's mutable global state: the arena `g_memory` (line 62),
the table `g_memoryTable` (line 67) and `g_memoryTableEntries` (line 72). -/
structure GlusState where
  memory : Nat → Nat
  memoryTable : Nat → GLUSmemoryTable
  memoryTableEntries : Nat

/-- The bound `tableIndex < g_memoryTableEntries && tableIndex <
GLUS_MEMORY_TABLE_ENTRIES` shared by every scan loop. -/
def tableLimit (s : GlusState) : Nat :=
  min s.memoryTableEntries GLUS_MEMORY_TABLE_ENTRIES

/-- A zero-initialized table entry (C static initialization of the slots not
listed in the line-67 initializer). -/
def zeroEntry : GLUSmemoryTable :=
  { valid := false, free := false, startIndex := 0, length := 0, pointer := 0 }

/-- The program's initial state: the arena is zero-initialized, slot 0 is the
single valid free entry spanning `GLUS_MEMORY_SIZE` (line 67), and
`g_memoryTableEntries = 1` (line 72).  `base` is the numeric address of
`g_memory`. -/
def initialState (base : Nat) : GlusState where
  memory := fun _ => 0
  memoryTable := fun i =>
    if i = 0 then
      { valid := true, free := true, startIndex := 0,
        length := GLUS_MEMORY_SIZE, pointer := base }
    else zeroEntry
  memoryTableEntries := 1

/-- `glusFindMemoryTableEntry` (lines 74-97): first reusable (invalid) slot
below the loop bound; the out-parameter becomes an `Option`. -/
def glusFindMemoryTableEntry (s : GlusState) : Option Nat :=
  (List.range (tableLimit s)).find? fun tableIndex =>
    !(s.memoryTable tableIndex).valid

/-- `glusInitMemoryTableEntry` (lines 99-119).  Note line 111: the stored
pointer is the arena *word value* at `startIndex`, not its address. -/
def glusInitMemoryTableEntry (s : GlusState) (tableIndex startIndex length : Nat) :
    GlusState × Bool :=
  if GLUS_MEMORY_TABLE_ENTRIES ≤ tableIndex then
    (s, false)
  else
    let entry : GLUSmemoryTable :=
      { valid := true, free := true, startIndex := startIndex,
        length := length, pointer := s.memory startIndex }
    let s1 : GlusState :=
      { s with memoryTable := Function.update s.memoryTable tableIndex entry }
    (if tableIndex = s1.memoryTableEntries then
      { s1 with memoryTableEntries := s1.memoryTableEntries + 1 }
    else s1, true)

/-- The merge of lines 152-154: grow `tableIndex`'s length by
`otherTableIndex`'s length (in `size_t` arithmetic) and invalidate
`otherTableIndex`. -/
def gcMerge (s : GlusState) (tableIndex otherTableIndex : Nat) : GlusState :=
  let grown : GLUSmemoryTable :=
    { s.memoryTable tableIndex with length :=
        ((s.memoryTable tableIndex).length +
          (s.memoryTable otherTableIndex).length) % W64 }
  let s1 : GlusState :=
    { s with memoryTable := Function.update s.memoryTable tableIndex grown }
  let dropped : GLUSmemoryTable :=
    { s1.memoryTable otherTableIndex with valid := false }
  { s1 with
      memoryTable := Function.update s1.memoryTable otherTableIndex dropped }

/-- Inner loop of `glusGarbageCollect` (lines 136-161): for a fixed
`tableIndex`, scan `otherTableIndex` over the given index list, merging any
valid free entry adjacent to `tableIndex` into it.  The `Bool` accumulates
`continueGC`. -/
def gcInner (tableIndex : Nat) : GlusState → List Nat → Bool → GlusState × Bool
  | s, [], merged => (s, merged)
  | s, otherTableIndex :: rest, merged =>
    if otherTableIndex = tableIndex then
      gcInner tableIndex s rest merged
    else if (s.memoryTable otherTableIndex).valid &&
        (s.memoryTable otherTableIndex).free &&
        decide ((((s.memoryTable tableIndex).startIndex +
            (s.memoryTable tableIndex).length / 4) % W64) =
          (s.memoryTable otherTableIndex).startIndex) then
      gcInner tableIndex (gcMerge s tableIndex otherTableIndex) rest true
    else
      gcInner tableIndex s rest merged

/-- Outer loop of one garbage-collection pass (lines 128-165). -/
def gcOuter : GlusState → List Nat → Bool → GlusState × Bool
  | s, [], merged => (s, merged)
  | s, tableIndex :: rest, merged =>
    if (s.memoryTable tableIndex).valid && (s.memoryTable tableIndex).free then
      let r := gcInner tableIndex s (List.range (tableLimit s)) merged
      gcOuter r.1 rest r.2
    else
      gcOuter s rest merged

/-- One full pass of the collector with `continueGC` reset to false. -/
def gcPass (s : GlusState) : GlusState × Bool :=
  gcOuter s (List.range (tableLimit s)) false

/-- Number of valid entries below the loop bound; a merging pass strictly
decreases it, which bounds the number of passes. -/
def countValid (s : GlusState) : Nat :=
  (List.range (tableLimit s)).countP fun tableIndex =>
    (s.memoryTable tableIndex).valid

/-- Fueled iteration of collector passes (the `while (continueGC)` loop,
line 126).  `glusGarbageCollect` supplies fuel proven sufficient to reach the
fixed point, so this equals the C loop's semantics. -/
def gcLoop : Nat → GlusState → GlusState
  | 0, s => s
  | fuel + 1, s =>
    let r := gcPass s
    if r.2 then gcLoop fuel r.1 else r.1

/-- `glusGarbageCollect` (lines 121-167). -/
def glusGarbageCollect (s : GlusState) : GlusState :=
  gcLoop (countValid s + 1) s

/-- Line 174: round `size` up to a multiple of 4 in `size_t` arithmetic. -/
def roundAlloc (size : Nat) : Nat :=
  if size % 4 = 0 then size else ((size / 4 + 1) * 4) % W64

/-- `size_t` subtraction (line 195 computes `length - allocatedLength`). -/
def sub64 (a b : Nat) : Nat :=
  if b ≤ a then a - b else a + W64 - b

/-- The first-fit scan of `glusInternalMalloc` (lines 181-184): first valid
free entry whose `length` is at least the *requested* (unrounded) size. -/
def mallocScan (s : GlusState) (size : Nat) : Option Nat :=
  (List.range (tableLimit s)).find? fun tableIndex =>
    (s.memoryTable tableIndex).valid && (s.memoryTable tableIndex).free &&
      decide (size ≤ (s.memoryTable tableIndex).length)

/-- Lines 202-203: mark entry `tableIndex` as not free with the granted
length. -/
def grantEntry (s1 : GlusState) (tableIndex alen : Nat) : GlusState :=
  let granted : GLUSmemoryTable :=
    { s1.memoryTable tableIndex with free := false, length := alen }
  { s1 with memoryTable := Function.update s1.memoryTable tableIndex granted }

/-- Lines 186-205 of `glusInternalMalloc`: grant the matched entry
`tableIndex`.  Try to record the split remainder in a reusable entry (else
the entry after `tableIndex`); if that fails, grant the whole block.  The
returned pointer is the entry's stored `pointer` field. -/
def mallocGrant (s : GlusState) (size tableIndex : Nat) : Nat × GlusState :=
  let allocatedLength := roundAlloc size
  let otherTableIndex :=
    match glusFindMemoryTableEntry s with
    | some found => found
    | none => tableIndex + 1
  let initResult := glusInitMemoryTableEntry s otherTableIndex
    (((s.memoryTable tableIndex).startIndex + allocatedLength / 4) % W64)
    (sub64 (s.memoryTable tableIndex).length allocatedLength)
  let s1 := initResult.1
  let allocatedLength1 :=
    if initResult.2 then allocatedLength
    else (s1.memoryTable tableIndex).length
  let s2 := grantEntry s1 tableIndex allocatedLength1
  ((s2.memoryTable tableIndex).pointer, s2)

/-- `glusInternalMalloc` (lines 169-212), returning the pointer (0 for null)
and the new state. -/
def glusInternalMalloc (s : GlusState) (size : Nat) : Nat × GlusState :=
  if roundAlloc size < size then
    (0, s)
  else
    match mallocScan s size with
    | none => (0, s)
    | some tableIndex => mallocGrant s size tableIndex

/-- `glusMalloc` (lines 216-238): zero-size guard, one attempt, one
collection pass, one retry. -/
def glusMalloc (s : GlusState) (size : Nat) : Nat × GlusState :=
  if size = 0 then
    (0, s)
  else
    let r := glusInternalMalloc s size
    if r.1 = 0 then
      glusInternalMalloc (glusGarbageCollect r.2) size
    else r

/-- `glusFree` (lines 240-262): linear search for an entry whose stored
pointer equals the argument; mark the first match free. -/
def glusFree (s : GlusState) (pointer : Nat) : GlusState :=
  if pointer = 0 then s
  else
    match (List.range (tableLimit s)).find? fun tableIndex =>
        decide ((s.memoryTable tableIndex).pointer = pointer) with
    | some tableIndex =>
      let released : GLUSmemoryTable :=
        { s.memoryTable tableIndex with free := true }
      { s with memoryTable := Function.update s.memoryTable tableIndex released }
    | none => s

/-- `countValid` with an explicit limit, for lemmas that track the count
across states whose `memoryTableEntries` agree. -/
def cvL (limit : Nat) (s : GlusState) : Nat :=
  (List.range limit).countP fun tableIndex => (s.memoryTable tableIndex).valid

/-- Spec-side variant of the first-fit scan: the specification says the scan
looks for the first free block with `length >= roundedSize`; this predicate
uses the rounded size where the code (line 184) uses the raw `size`. -/
def mallocScanRounded (s : GlusState) (size : Nat) : Option Nat :=
  (List.range (tableLimit s)).find? fun tableIndex =>
    (s.memoryTable tableIndex).valid && (s.memoryTable tableIndex).free &&
      decide (roundAlloc size ≤ (s.memoryTable tableIndex).length)

/-- Spec-side variant of `glusInternalMalloc`, identical except that the
first-fit scan compares against the rounded size (`mallocScanRounded`),
following the specification's wording of first-fit. -/
def glusInternalMallocRounded (s : GlusState) (size : Nat) : Nat × GlusState :=
  if roundAlloc size < size then
    (0, s)
  else
    match mallocScanRounded s size with
    | none => (0, s)
    | some tableIndex => mallocGrant s size tableIndex

/-- Spec-side block address: the spec derives a block's address as arena
base plus `startIndex` times the word size W = 4. -/
def specBlockAddress (base : Nat) (e : GLUSmemoryTable) : Nat :=
  base + 4 * e.startIndex

/-- Total length of the currently free (valid and free) blocks below the
loop bound: the "total free capacity" of the claims. -/
def totalFreeLength (s : GlusState) : Nat :=
  ((List.range (tableLimit s)).map fun tableIndex =>
    if (s.memoryTable tableIndex).valid && (s.memoryTable tableIndex).free then
      (s.memoryTable tableIndex).length
    else 0).sum

/-- Whether arena byte `b` lies in the byte range `[4*startIndex,
4*startIndex + length)` of some Allocated-or-Free (i.e. valid) block below
the loop bound. -/
def coversByte (s : GlusState) (b : Nat) : Bool :=
  (List.range (tableLimit s)).any fun tableIndex =>
    (s.memoryTable tableIndex).valid &&
      decide (4 * (s.memoryTable tableIndex).startIndex ≤ b) &&
      decide (b < 4 * (s.memoryTable tableIndex).startIndex +
        (s.memoryTable tableIndex).length)

/-- States reachable from the initial state by the public operations (and
the collector, which `glusMalloc` can invoke). `base` is the arena's
address. -/
inductive Reachable (base : Nat) : GlusState → Prop
  | init : Reachable base (initialState base)
  | mallocStep (size : Nat) {s : GlusState} :
      Reachable base s → Reachable base (glusMalloc s size).2
  | freeStep (pointer : Nat) {s : GlusState} :
      Reachable base s → Reachable base (glusFree s pointer)
  | collectStep {s : GlusState} :
      Reachable base s → Reachable base (glusGarbageCollect s)

/-- The state invariant maintained by every reachable state. -/
structure Inv (base : Nat) (s : GlusState) : Prop where
  memZero : ∀ i, s.memory i = 0
  entriesPos : 1 ≤ s.memoryTableEntries
  ptrBase : ∀ i, (s.memoryTable i).pointer = 0 ∨ (s.memoryTable i).pointer = base
  validZero : (s.memoryTable 0).valid = true
  startZero : (s.memoryTable 0).startIndex = 0
  divFour : ∀ i, (s.memoryTable i).valid = true → 4 ∣ (s.memoryTable i).length
  startPos : ∀ i, i ≠ 0 → (s.memoryTable i).valid = true →
    (s.memoryTable i).startIndex ≠ 0
  bounded : ∀ i, (s.memoryTable i).valid = true →
    (s.memoryTable i).startIndex + (s.memoryTable i).length / 4 ≤ GLUS_MEMORY_SIZE

/-- Concrete state for the TableExhaustion scenario: the table is at full
capacity (1024 valid entries, none Unused), entry 0 is a free 8-byte block
at word 0 and every other entry is allocated. -/
def fullTableState : GlusState where
  memory := fun _ => 0
  memoryTable := fun i =>
    if i = 0 then
      { valid := true, free := true, startIndex := 0, length := 8, pointer := 4 }
    else
      { valid := true, free := false, startIndex := 2 * i, length := 4, pointer := 0 }
  memoryTableEntries := 1024

/-- State after `malloc(100)` from the initial state with arena base 4. -/
def afterFirstMalloc : GlusState := (glusMalloc (initialState 4) 100).2

/-- State after `malloc(100); free(base); malloc(8)` from the initial state
with arena base 4 (the first malloc returns the base pointer 4). -/
def clobberState : GlusState :=
  (glusMalloc (glusFree afterFirstMalloc 4) 8).2

/-- State after `malloc(4); free(base)` from the initial state with arena
base 4: two adjacent free blocks, so a collector pass performs a merge. -/
def adjacentFreeState : GlusState :=
  glusFree (glusMalloc (initialState 4) 4).2 4

/-! ## Helper lemmas -/

theorem pairEq {α β : Type} {p : α × β} {b : β} (h : p.2 = b) : p = (p.1, b) := by
  rw [← h]

theorem gcInner_memory (tableIndex : Nat) :
    ∀ (l : List Nat) (s : GlusState) (merged : Bool),
      (gcInner tableIndex s l merged).1.memory = s.memory := by
  intro l
  induction l with
  | nil => intro s merged; rfl
  | cons j rest ih =>
    intro s merged
    simp only [gcInner]
    split
    · exact ih s merged
    · split
      · exact ih _ true
      · exact ih s merged

theorem gcInner_entries (tableIndex : Nat) :
    ∀ (l : List Nat) (s : GlusState) (merged : Bool),
      (gcInner tableIndex s l merged).1.memoryTableEntries =
        s.memoryTableEntries := by
  intro l
  induction l with
  | nil => intro s merged; rfl
  | cons j rest ih =>
    intro s merged
    simp only [gcInner]
    split
    · exact ih s merged
    · split
      · exact ih _ true
      · exact ih s merged

theorem gcOuter_memory :
    ∀ (l : List Nat) (s : GlusState) (merged : Bool),
      (gcOuter s l merged).1.memory = s.memory := by
  intro l
  induction l with
  | nil => intro s merged; rfl
  | cons i rest ih =>
    intro s merged
    simp only [gcOuter]
    split
    · exact (ih _ _).trans (gcInner_memory i _ s merged)
    · exact ih s merged

theorem gcOuter_entries :
    ∀ (l : List Nat) (s : GlusState) (merged : Bool),
      (gcOuter s l merged).1.memoryTableEntries = s.memoryTableEntries := by
  intro l
  induction l with
  | nil => intro s merged; rfl
  | cons i rest ih =>
    intro s merged
    simp only [gcOuter]
    split
    · exact (ih _ _).trans (gcInner_entries i _ s merged)
    · exact ih s merged

theorem gcPass_memory (s : GlusState) : (gcPass s).1.memory = s.memory :=
  gcOuter_memory _ s false

theorem gcPass_entries (s : GlusState) :
    (gcPass s).1.memoryTableEntries = s.memoryTableEntries :=
  gcOuter_entries _ s false

theorem gcLoop_memory :
    ∀ (fuel : Nat) (s : GlusState), (gcLoop fuel s).memory = s.memory := by
  intro fuel
  induction fuel with
  | zero => intro s; rfl
  | succ n ih =>
    intro s
    simp only [gcLoop]
    split
    · exact (ih _).trans (gcPass_memory s)
    · exact gcPass_memory s

theorem gcLoop_entries :
    ∀ (fuel : Nat) (s : GlusState),
      (gcLoop fuel s).memoryTableEntries = s.memoryTableEntries := by
  intro fuel
  induction fuel with
  | zero => intro s; rfl
  | succ n ih =>
    intro s
    simp only [gcLoop]
    split
    · exact (ih _).trans (gcPass_entries s)
    · exact gcPass_entries s

theorem glusGarbageCollect_memory (s : GlusState) :
    (glusGarbageCollect s).memory = s.memory :=
  gcLoop_memory _ s

theorem glusGarbageCollect_entries (s : GlusState) :
    (glusGarbageCollect s).memoryTableEntries = s.memoryTableEntries :=
  gcLoop_entries _ s

theorem glusInitMemoryTableEntry_memory (s : GlusState) (i a b : Nat) :
    (glusInitMemoryTableEntry s i a b).1.memory = s.memory := by
  simp only [glusInitMemoryTableEntry]
  split
  · rfl
  · split <;> rfl

theorem mallocGrant_memory (s : GlusState) (size tableIndex : Nat) :
    (mallocGrant s size tableIndex).2.memory = s.memory := by
  simp only [mallocGrant]
  exact glusInitMemoryTableEntry_memory s _ _ _

theorem glusInternalMalloc_memory (s : GlusState) (size : Nat) :
    (glusInternalMalloc s size).2.memory = s.memory := by
  simp only [glusInternalMalloc]
  split
  · rfl
  · split
    · rfl
    · exact mallocGrant_memory s _ _

theorem glusMalloc_memory (s : GlusState) (size : Nat) :
    (glusMalloc s size).2.memory = s.memory := by
  simp only [glusMalloc]
  split
  · rfl
  · split
    · exact (glusInternalMalloc_memory _ size).trans
        ((glusGarbageCollect_memory _).trans (glusInternalMalloc_memory s size))
    · exact glusInternalMalloc_memory s size

theorem glusFree_memory (s : GlusState) (pointer : Nat) :
    (glusFree s pointer).memory = s.memory := by
  simp only [glusFree]
  split
  · rfl
  · split <;> rfl

/-! ## Garbage-collection fixed point -/

theorem gcInner_flag_true (tableIndex : Nat) :
    ∀ (l : List Nat) (s : GlusState), (gcInner tableIndex s l true).2 = true := by
  intro l
  induction l with
  | nil => intro s; rfl
  | cons j rest ih =>
    intro s
    simp only [gcInner]
    split
    · exact ih s
    · split
      · exact ih _
      · exact ih s

theorem gcInner_eq_false (tableIndex : Nat) :
    ∀ (l : List Nat) (s : GlusState) (merged : Bool) (sf : GlusState),
      gcInner tableIndex s l merged = (sf, false) →
        merged = false ∧ sf = s := by
  intro l
  induction l with
  | nil =>
    intro s merged sf h
    exact ⟨congrArg Prod.snd h, (congrArg Prod.fst h).symm⟩
  | cons j rest ih =>
    intro s merged sf h
    simp only [gcInner] at h
    split at h
    · exact ih s merged sf h
    · split at h
      · have hflag := congrArg Prod.snd h
        rw [gcInner_flag_true] at hflag
        exact absurd hflag (by simp)
      · exact ih s merged sf h

theorem gcOuter_eq_false :
    ∀ (l : List Nat) (s : GlusState) (merged : Bool) (sf : GlusState),
      gcOuter s l merged = (sf, false) → merged = false ∧ sf = s := by
  intro l
  induction l with
  | nil =>
    intro s merged sf h
    exact ⟨congrArg Prod.snd h, (congrArg Prod.fst h).symm⟩
  | cons i rest ih =>
    intro s merged sf h
    simp only [gcOuter] at h
    split at h
    · obtain ⟨h1, h2⟩ := ih _ _ _ h
      obtain ⟨h3, h4⟩ := gcInner_eq_false i _ s merged _ (pairEq h1)
      exact ⟨h3, h2.trans h4⟩
    · exact ih s merged sf h

theorem gcPass_eq_false (s : GlusState) (sf : GlusState)
    (h : gcPass s = (sf, false)) : sf = s :=
  (gcOuter_eq_false _ s false sf h).2

theorem countP_range_congr {limit : Nat} {f g : Nat → Bool}
    (h : ∀ k, k < limit → f k = g k) :
    (List.range limit).countP f = (List.range limit).countP g := by
  induction limit with
  | zero => rfl
  | succ n ih =>
    rw [List.range_succ, List.countP_append, List.countP_append]
    rw [ih fun k hk => h k (Nat.lt_succ_of_lt hk)]
    have hn := h n (Nat.lt_succ_self n)
    simp [List.countP_cons, hn]

theorem countP_range_update_false {limit j : Nat} {f g : Nat → Bool}
    (hj : j < limit) (hf : f j = true) (hg : g j = false)
    (hk : ∀ k, k ≠ j → g k = f k) :
    (List.range limit).countP g + 1 = (List.range limit).countP f := by
  induction limit with
  | zero => exact absurd hj (Nat.not_lt_zero j)
  | succ n ih =>
    rw [List.range_succ, List.countP_append, List.countP_append]
    rcases Nat.lt_succ_iff_lt_or_eq.mp hj with h | rfl
    · have h1 := ih h
      have h2 : g n = f n := hk n (Nat.ne_of_gt h)
      simp only [List.countP_cons, List.countP_nil, h2]
      omega
    · have h1 : (List.range j).countP g = (List.range j).countP f :=
        countP_range_congr fun k hkj => hk k (Nat.ne_of_lt hkj)
      simp [List.countP_cons, List.countP_nil, hf, hg, h1]

theorem gcMerge_valid_ne {s : GlusState} {t j k : Nat} (hk : k ≠ j) :
    ((gcMerge s t j).memoryTable k).valid = (s.memoryTable k).valid := by
  by_cases hkt : k = t
  · subst hkt
    simp [gcMerge, Function.update_noteq hk, Function.update_same]
  · simp [gcMerge, Function.update_noteq hk, Function.update_noteq hkt]

theorem gcMerge_valid_self {s : GlusState} {t j : Nat} :
    ((gcMerge s t j).memoryTable j).valid = false := by
  simp [gcMerge, Function.update_same]

theorem gcMerge_cv (L t : Nat) {j : Nat} {s : GlusState} (hjL : j < L)
    (hv : (s.memoryTable j).valid = true) :
    cvL L (gcMerge s t j) + 1 = cvL L s :=
  countP_range_update_false hjL hv gcMerge_valid_self
    fun _ hk => gcMerge_valid_ne hk

theorem gcInner_cv_le (tableIndex L : Nat) :
    ∀ (l : List Nat) (s : GlusState) (merged : Bool), (∀ x ∈ l, x < L) →
      cvL L (gcInner tableIndex s l merged).1 ≤ cvL L s := by
  intro l
  induction l with
  | nil => intro s m _; exact Nat.le_refl _
  | cons j rest ih =>
    intro s m hl
    have hrest : ∀ x ∈ rest, x < L := fun x hx => hl x (List.mem_cons_of_mem j hx)
    simp only [gcInner]
    split
    · exact ih s m hrest
    · split
      · rename_i hcond
        have hv : (s.memoryTable j).valid = true := by
          simp only [Bool.and_eq_true, decide_eq_true_eq] at hcond
          exact hcond.1.1
        have hjL : j < L := hl j (List.mem_cons_self j rest)
        have hcv := gcMerge_cv L tableIndex hjL hv
        have hle := ih (gcMerge s tableIndex j) true hrest
        omega
      · exact ih s m hrest

theorem gcInner_cv_lt (tableIndex L : Nat) :
    ∀ (l : List Nat) (s sf : GlusState), (∀ x ∈ l, x < L) →
      gcInner tableIndex s l false = (sf, true) →
      cvL L sf < cvL L s := by
  intro l
  induction l with
  | nil =>
    intro s sf _ h
    exact absurd (congrArg Prod.snd h) (by simp [gcInner])
  | cons j rest ih =>
    intro s sf hl h
    have hrest : ∀ x ∈ rest, x < L := fun x hx => hl x (List.mem_cons_of_mem j hx)
    simp only [gcInner] at h
    split at h
    · exact ih s sf hrest h
    · split at h
      · rename_i hcond
        have hv : (s.memoryTable j).valid = true := by
          simp only [Bool.and_eq_true, decide_eq_true_eq] at hcond
          exact hcond.1.1
        have hjL : j < L := hl j (List.mem_cons_self j rest)
        have hcv := gcMerge_cv L tableIndex hjL hv
        have hle := gcInner_cv_le tableIndex L rest (gcMerge s tableIndex j) true hrest
        simp only [h] at hle
        omega
      · exact ih s sf hrest h

theorem gcOuter_cv_le (L : Nat) :
    ∀ (l : List Nat) (s : GlusState) (merged : Bool), tableLimit s = L →
      cvL L (gcOuter s l merged).1 ≤ cvL L s := by
  intro l
  induction l with
  | nil => intro s m _; exact Nat.le_refl _
  | cons i rest ih =>
    intro s m hL
    simp only [gcOuter]
    split
    · have h1 : cvL L (gcInner i s (List.range (tableLimit s)) m).1 ≤ cvL L s :=
        gcInner_cv_le i L _ s m fun x hx => hL ▸ List.mem_range.mp hx
      have hL1 : tableLimit (gcInner i s (List.range (tableLimit s)) m).1 = L := by
        rw [← hL]
        simp [tableLimit, gcInner_entries]
      exact le_trans (ih _ _ hL1) h1
    · exact ih s m hL

theorem gcOuter_cv_lt (L : Nat) :
    ∀ (l : List Nat) (s sf : GlusState), tableLimit s = L →
      gcOuter s l false = (sf, true) → cvL L sf < cvL L s := by
  intro l
  induction l with
  | nil =>
    intro s sf _ h
    exact absurd (congrArg Prod.snd h) (by simp [gcOuter])
  | cons i rest ih =>
    intro s sf hL h
    simp only [gcOuter] at h
    split at h
    · cases hb : (gcInner i s (List.range (tableLimit s)) false).2
      · have hpair := pairEq hb
        have h4 := (gcInner_eq_false i _ s false _ hpair).2
        rw [hb, h4] at h
        exact ih s sf hL h
      · have hpair := pairEq hb
        have hlt : cvL L (gcInner i s (List.range (tableLimit s)) false).1 < cvL L s :=
          gcInner_cv_lt i L _ s _ (fun x hx => hL ▸ List.mem_range.mp hx) hpair
        have hL1 : tableLimit (gcInner i s (List.range (tableLimit s)) false).1 = L := by
          rw [← hL]
          simp [tableLimit, gcInner_entries]
        have hle := gcOuter_cv_le L rest _
          (gcInner i s (List.range (tableLimit s)) false).2 hL1
        simp only [h] at hle
        omega
    · exact ih s sf hL h

theorem gcPass_cv_lt (s sf : GlusState) (h : gcPass s = (sf, true)) :
    cvL (tableLimit s) sf < cvL (tableLimit s) s :=
  gcOuter_cv_lt (tableLimit s) _ s sf rfl h

theorem gcLoop_fix :
    ∀ (fuel : Nat) (s : GlusState), cvL (tableLimit s) s < fuel →
      gcPass (gcLoop fuel s) = (gcLoop fuel s, false) := by
  intro fuel
  induction fuel with
  | zero => intro s h; exact absurd h (Nat.not_lt_zero _)
  | succ n ih =>
    intro s h
    simp only [gcLoop]
    split
    · rename_i hb
      apply ih
      have hL : tableLimit (gcPass s).1 = tableLimit s := by
        simp [tableLimit, gcPass_entries]
      rw [hL]
      have := gcPass_cv_lt s _ (pairEq hb)
      omega
    · rename_i hb
      have hb2 : (gcPass s).2 = false := by simpa using hb
      have hpair : gcPass s = ((gcPass s).1, false) := pairEq hb2
      have h4 : (gcPass s).1 = s := gcPass_eq_false s _ hpair
      rw [h4]
      rw [h4] at hpair
      exact hpair

theorem gcPass_gc (s : GlusState) :
    gcPass (glusGarbageCollect s) = (glusGarbageCollect s, false) :=
  gcLoop_fix (countValid s + 1) s (Nat.lt_succ_self _)

theorem gc_idem (s : GlusState) :
    glusGarbageCollect (glusGarbageCollect s) = glusGarbageCollect s := by
  show gcLoop (countValid (glusGarbageCollect s) + 1) (glusGarbageCollect s) =
    glusGarbageCollect s
  simp only [gcLoop]
  rw [gcPass_gc s]
  simp

theorem gcInner_no_adjacent (tableIndex : Nat) :
    ∀ (l : List Nat) (s sf : GlusState),
      gcInner tableIndex s l false = (sf, false) →
      ∀ j ∈ l, j ≠ tableIndex →
        (s.memoryTable j).valid = true → (s.memoryTable j).free = true →
        (((s.memoryTable tableIndex).startIndex +
          (s.memoryTable tableIndex).length / 4) % W64) ≠
          (s.memoryTable j).startIndex := by
  intro l
  induction l with
  | nil =>
    intro s sf _ j hj
    exact absurd hj (List.not_mem_nil j)
  | cons a rest ih =>
    intro s sf h j hj hne hv hf
    simp only [gcInner] at h
    split at h
    · rename_i hat
      rcases List.mem_cons.mp hj with rfl | hjr
      · exact absurd hat hne
      · exact ih s sf h j hjr hne hv hf
    · split at h
      · have hflag := congrArg Prod.snd h
        rw [gcInner_flag_true] at hflag
        exact absurd hflag (by simp)
      · rename_i hcond
        rcases List.mem_cons.mp hj with rfl | hjr
        · intro hadj
          exact hcond (by simp [hv, hf, hadj])
        · exact ih s sf h j hjr hne hv hf

theorem gcOuter_no_adjacent :
    ∀ (l : List Nat) (s sf : GlusState),
      gcOuter s l false = (sf, false) →
      ∀ i ∈ l, (s.memoryTable i).valid = true → (s.memoryTable i).free = true →
      ∀ j ∈ List.range (tableLimit s), j ≠ i →
        (s.memoryTable j).valid = true → (s.memoryTable j).free = true →
        (((s.memoryTable i).startIndex + (s.memoryTable i).length / 4) % W64) ≠
          (s.memoryTable j).startIndex := by
  intro l
  induction l with
  | nil =>
    intro s sf _ i hi
    exact absurd hi (List.not_mem_nil i)
  | cons a rest ih =>
    intro s sf h i hi hv hf j hj hne hjv hjf
    simp only [gcOuter] at h
    split at h
    · obtain ⟨h1, h2⟩ := gcOuter_eq_false rest _ _ sf h
      have h4 : (gcInner a s (List.range (tableLimit s)) false).1 = s :=
        (gcInner_eq_false a _ s false _ (pairEq h1)).2
      rcases List.mem_cons.mp hi with rfl | hir
      · exact gcInner_no_adjacent i _ s _ (pairEq h1) j hj hne hjv hjf
      · rw [h1, h4] at h
        exact ih s sf h i hir hv hf j hj hne hjv hjf
    · rename_i hvf
      rcases List.mem_cons.mp hi with rfl | hir
      · exact absurd (by simp [hv, hf]) hvf
      · exact ih s sf h i hir hv hf j hj hne hjv hjf

theorem gcPass_no_adjacent (s : GlusState) (h : gcPass s = (s, false)) :
    ∀ i, i < tableLimit s →
      (s.memoryTable i).valid = true → (s.memoryTable i).free = true →
    ∀ j, j < tableLimit s → j ≠ i →
      (s.memoryTable j).valid = true → (s.memoryTable j).free = true →
      (((s.memoryTable i).startIndex + (s.memoryTable i).length / 4) % W64) ≠
        (s.memoryTable j).startIndex := by
  intro i hi hv hf j hj hne hjv hjf
  exact gcOuter_no_adjacent _ s s h i (List.mem_range.mpr hi) hv hf
    j (List.mem_range.mpr hj) hne hjv hjf

/-! ## The reachable-state invariant -/

theorem glusFree_entries (s : GlusState) (pointer : Nat) :
    (glusFree s pointer).memoryTableEntries = s.memoryTableEntries := by
  simp only [glusFree]
  split
  · rfl
  · split <;> rfl

theorem glusFree_table_cases (s : GlusState) (pointer k : Nat) :
    (glusFree s pointer).memoryTable k = s.memoryTable k ∨
      (glusFree s pointer).memoryTable k =
        { s.memoryTable k with free := true } := by
  simp only [glusFree]
  split
  · exact Or.inl rfl
  · split
    · rename_i tableIndex hfound
      by_cases hk : k = tableIndex
      · subst hk
        exact Or.inr (by simp [Function.update_same])
      · exact Or.inl (by simp [Function.update_noteq hk])
    · exact Or.inl rfl

theorem glusFree_inv {base : Nat} {s : GlusState} (h : Inv base s)
    (pointer : Nat) : Inv base (glusFree s pointer) where
  memZero i := by rw [glusFree_memory]; exact h.memZero i
  entriesPos := by rw [glusFree_entries]; exact h.entriesPos
  ptrBase i := by
    rcases glusFree_table_cases s pointer i with hc | hc <;> rw [hc]
    · exact h.ptrBase i
    · exact h.ptrBase i
  validZero := by
    rcases glusFree_table_cases s pointer 0 with hc | hc <;> rw [hc]
    · exact h.validZero
    · exact h.validZero
  startZero := by
    rcases glusFree_table_cases s pointer 0 with hc | hc <;> rw [hc]
    · exact h.startZero
    · exact h.startZero
  divFour i := by
    rcases glusFree_table_cases s pointer i with hc | hc <;> rw [hc]
    · exact h.divFour i
    · exact h.divFour i
  startPos i hi := by
    rcases glusFree_table_cases s pointer i with hc | hc <;> rw [hc]
    · exact h.startPos i hi
    · exact h.startPos i hi
  bounded i := by
    rcases glusFree_table_cases s pointer i with hc | hc <;> rw [hc]
    · exact h.bounded i
    · exact h.bounded i

theorem memSize_eq : GLUS_MEMORY_SIZE = 4194304 := by
  norm_num [GLUS_MEMORY_SIZE]

theorem w64_eq : W64 = 18446744073709551616 := by
  norm_num [W64]

theorem memSize_lt_w64 : GLUS_MEMORY_SIZE < W64 := by
  norm_num [GLUS_MEMORY_SIZE, W64]

theorem gcMerge_table_other {s : GlusState} {t j k : Nat}
    (hkt : k ≠ t) (hkj : k ≠ j) :
    (gcMerge s t j).memoryTable k = s.memoryTable k := by
  simp [gcMerge, Function.update_noteq hkj, Function.update_noteq hkt]

theorem gcMerge_table_j {s : GlusState} {t j : Nat} (hjt : j ≠ t) :
    (gcMerge s t j).memoryTable j = { s.memoryTable j with valid := false } := by
  simp [gcMerge, Function.update_same, Function.update_noteq hjt]

theorem gcMerge_table_t {s : GlusState} {t j : Nat} (hjt : j ≠ t) :
    (gcMerge s t j).memoryTable t =
      { s.memoryTable t with length :=
          ((s.memoryTable t).length + (s.memoryTable j).length) % W64 } := by
  simp [gcMerge, Function.update_same, Function.update_noteq (Ne.symm hjt)]

theorem gcMerge_inv {base : Nat} {s : GlusState} {t j : Nat} (h : Inv base s)
    (hjt : j ≠ t)
    (hvt : (s.memoryTable t).valid = true)
    (hvj : (s.memoryTable j).valid = true)
    (hadj : (((s.memoryTable t).startIndex + (s.memoryTable t).length / 4) % W64) =
      (s.memoryTable j).startIndex) :
    Inv base (gcMerge s t j) := by
  have hbt := h.bounded t hvt
  have hbj := h.bounded j hvj
  obtain ⟨lt4, hlt4⟩ := h.divFour t hvt
  obtain ⟨lj4, hlj4⟩ := h.divFour j hvj
  have hdivt : (s.memoryTable t).length / 4 = lt4 := by
    rw [hlt4]; exact Nat.mul_div_cancel_left lt4 (by norm_num)
  have hdivj : (s.memoryTable j).length / 4 = lj4 := by
    rw [hlj4]; exact Nat.mul_div_cancel_left lj4 (by norm_num)
  have hMW := memSize_lt_w64
  have hadj2 : (s.memoryTable t).startIndex + (s.memoryTable t).length / 4 =
      (s.memoryTable j).startIndex := by
    rw [← hadj, Nat.mod_eq_of_lt (by omega)]
  have hsum : ((s.memoryTable t).length + (s.memoryTable j).length) % W64 =
      (s.memoryTable t).length + (s.memoryTable j).length := by
    apply Nat.mod_eq_of_lt
    have hM := memSize_eq
    have hW := w64_eq
    omega
  refine ⟨?_, h.entriesPos, ?_, ?_, ?_, ?_, ?_, ?_⟩
  · exact h.memZero
  · intro i
    by_cases hij : i = j
    · subst hij
      rw [gcMerge_table_j hjt]
      exact h.ptrBase i
    · by_cases hit : i = t
      · subst hit
        rw [gcMerge_table_t hjt]
        exact h.ptrBase i
      · rw [gcMerge_table_other hit hij]
        exact h.ptrBase i
  · have hj0 : j ≠ 0 := by
      intro hj0
      subst hj0
      rw [h.startZero] at hadj2
      by_cases ht0 : t = 0
      · exact hjt ht0.symm
      · exact h.startPos t ht0 hvt (by omega)
    by_cases ht0 : t = 0
    · subst ht0
      rw [gcMerge_table_t hjt]
      exact h.validZero
    · rw [gcMerge_table_other (fun hc => ht0 hc.symm) (fun hc => hj0 hc.symm)]
      exact h.validZero
  · have hj0 : j ≠ 0 := by
      intro hj0
      subst hj0
      rw [h.startZero] at hadj2
      by_cases ht0 : t = 0
      · exact hjt ht0.symm
      · exact h.startPos t ht0 hvt (by omega)
    by_cases ht0 : t = 0
    · subst ht0
      rw [gcMerge_table_t hjt]
      exact h.startZero
    · rw [gcMerge_table_other (fun hc => ht0 hc.symm) (fun hc => hj0 hc.symm)]
      exact h.startZero
  · intro i hvi
    by_cases hij : i = j
    · subst hij
      rw [gcMerge_table_j hjt] at hvi
      exact absurd hvi (by simp)
    · by_cases hit : i = t
      · rw [hit, gcMerge_table_t hjt]
        show 4 ∣ ((s.memoryTable t).length + (s.memoryTable j).length) % W64
        rw [hsum, hlt4, hlj4]
        exact ⟨lt4 + lj4, by ring⟩
      · rw [gcMerge_table_other hit hij]
        rw [gcMerge_table_other hit hij] at hvi
        exact h.divFour i hvi
  · intro i hi hvi
    by_cases hij : i = j
    · subst hij
      rw [gcMerge_table_j hjt] at hvi
      exact absurd hvi (by simp)
    · by_cases hit : i = t
      · rw [hit, gcMerge_table_t hjt] at hvi ⊢
        exact h.startPos t (hit ▸ hi) hvi
      · rw [gcMerge_table_other hit hij] at hvi ⊢
        exact h.startPos i hi hvi
  · intro i hvi
    by_cases hij : i = j
    · subst hij
      rw [gcMerge_table_j hjt] at hvi
      exact absurd hvi (by simp)
    · by_cases hit : i = t
      · rw [hit, gcMerge_table_t hjt]
        show (s.memoryTable t).startIndex +
          (((s.memoryTable t).length + (s.memoryTable j).length) % W64) / 4 ≤
            GLUS_MEMORY_SIZE
        rw [hsum, hlt4, hlj4, ← Nat.left_distrib,
          Nat.mul_div_cancel_left (lt4 + lj4) (by norm_num : 0 < 4)]
        omega
      · rw [gcMerge_table_other hit hij]
        rw [gcMerge_table_other hit hij] at hvi
        exact h.bounded i hvi

theorem gcInner_inv (base t : Nat) :
    ∀ (l : List Nat) (s : GlusState) (merged : Bool), Inv base s →
      (s.memoryTable t).valid = true →
      Inv base (gcInner t s l merged).1 := by
  intro l
  induction l with
  | nil => intro s m h _; exact h
  | cons j rest ih =>
    intro s m h hvt
    simp only [gcInner]
    split
    · exact ih s m h hvt
    · split
      · rename_i hne hcond
        simp only [Bool.and_eq_true, decide_eq_true_eq] at hcond
        refine ih _ true (gcMerge_inv h hne hvt hcond.1.1 hcond.2) ?_
        rw [gcMerge_valid_ne (fun hc => hne hc.symm)]
        exact hvt
      · exact ih s m h hvt

theorem gcOuter_inv (base : Nat) :
    ∀ (l : List Nat) (s : GlusState) (merged : Bool), Inv base s →
      Inv base (gcOuter s l merged).1 := by
  intro l
  induction l with
  | nil => intro s m h; exact h
  | cons i rest ih =>
    intro s m h
    simp only [gcOuter]
    split
    · rename_i hvf
      simp only [Bool.and_eq_true] at hvf
      exact ih _ _ (gcInner_inv base i _ s m h hvf.1)
    · exact ih s m h

theorem gcLoop_inv (base : Nat) :
    ∀ (fuel : Nat) (s : GlusState), Inv base s → Inv base (gcLoop fuel s) := by
  intro fuel
  induction fuel with
  | zero => intro s h; exact h
  | succ n ih =>
    intro s h
    simp only [gcLoop]
    split
    · exact ih _ (gcOuter_inv base _ s false h)
    · exact gcOuter_inv base _ s false h

theorem glusGarbageCollect_inv {base : Nat} {s : GlusState} (h : Inv base s) :
    Inv base (glusGarbageCollect s) :=
  gcLoop_inv base _ s h

theorem roundAlloc_dvd (size : Nat) : 4 ∣ roundAlloc size := by
  rw [roundAlloc]
  split
  · rename_i h
    exact Nat.dvd_of_mod_eq_zero h
  · have h4 : (4 : Nat) ∣ W64 := by rw [w64_eq]; norm_num
    rw [Nat.dvd_mod_iff h4]
    exact ⟨size / 4 + 1, by ring⟩

theorem roundAlloc_le {size L : Nat} (hguard : ¬ roundAlloc size < size)
    (h4 : 4 ∣ L) (hsz : size ≤ L) (hL : L ≤ 4 * GLUS_MEMORY_SIZE) :
    roundAlloc size ≤ L := by
  have hW := w64_eq
  have hM := memSize_eq
  by_cases hm : size % 4 = 0
  · rw [roundAlloc, if_pos hm]
    exact hsz
  · rw [roundAlloc, if_neg hm] at hguard ⊢
    obtain ⟨k, rfl⟩ := h4
    have hw : (size / 4 + 1) * 4 < W64 := by omega
    rw [Nat.mod_eq_of_lt hw] at hguard ⊢
    omega

theorem roundAlloc_ge {size : Nat} (hguard : ¬ roundAlloc size < size) :
    size ≤ roundAlloc size :=
  Nat.le_of_not_lt hguard

theorem roundAlloc_ge_four {size : Nat} (h1 : 1 ≤ size)
    (hguard : ¬ roundAlloc size < size) : 4 ≤ roundAlloc size := by
  obtain ⟨k, hk⟩ := roundAlloc_dvd size
  have h2 := roundAlloc_ge hguard
  omega

theorem glusInitMemoryTableEntry_table_ne {s : GlusState} {tI st ln k : Nat}
    (hk : k ≠ tI) :
    (glusInitMemoryTableEntry s tI st ln).1.memoryTable k = s.memoryTable k := by
  simp only [glusInitMemoryTableEntry]
  split
  · rfl
  · split <;> simp [Function.update_noteq hk]

theorem glusInitMemoryTableEntry_entries_ge (s : GlusState) (tI st ln : Nat) :
    s.memoryTableEntries ≤
      (glusInitMemoryTableEntry s tI st ln).1.memoryTableEntries := by
  simp only [glusInitMemoryTableEntry]
  split
  · exact Nat.le_refl _
  · split
    · exact Nat.le_succ _
    · exact Nat.le_refl _

theorem glusInitMemoryTableEntry_table_eq (s : GlusState) (tI st ln : Nat)
    (hc : ¬ GLUS_MEMORY_TABLE_ENTRIES ≤ tI) :
    (glusInitMemoryTableEntry s tI st ln).1.memoryTable tI =
      { valid := true, free := true, startIndex := st, length := ln,
        pointer := s.memory st } := by
  simp only [glusInitMemoryTableEntry, if_neg hc]
  split <;> simp [Function.update_same]

theorem glusInitMemoryTableEntry_inv {base : Nat} {s : GlusState}
    {tI st ln : Nat} (h : Inv base s) (htI : 1 ≤ tI) (hst : st ≠ 0)
    (h4 : 4 ∣ ln) (hb : st + ln / 4 ≤ GLUS_MEMORY_SIZE) :
    Inv base (glusInitMemoryTableEntry s tI st ln).1 := by
  by_cases hc : GLUS_MEMORY_TABLE_ENTRIES ≤ tI
  · simp only [glusInitMemoryTableEntry, if_pos hc]
    exact h
  · have htbl := glusInitMemoryTableEntry_table_eq s tI st ln hc
    have h0ne : (0 : Nat) ≠ tI := by omega
    refine ⟨?_, ?_, ?_, ?_, ?_, ?_, ?_, ?_⟩
    · intro i
      rw [glusInitMemoryTableEntry_memory]
      exact h.memZero i
    · exact le_trans h.entriesPos (glusInitMemoryTableEntry_entries_ge s tI st ln)
    · intro i
      by_cases hk : i = tI
      · subst hk
        rw [htbl]
        exact Or.inl (h.memZero st)
      · rw [glusInitMemoryTableEntry_table_ne hk]
        exact h.ptrBase i
    · rw [glusInitMemoryTableEntry_table_ne h0ne]
      exact h.validZero
    · rw [glusInitMemoryTableEntry_table_ne h0ne]
      exact h.startZero
    · intro i hvi
      by_cases hk : i = tI
      · subst hk
        rw [htbl]
        exact h4
      · rw [glusInitMemoryTableEntry_table_ne hk]
        rw [glusInitMemoryTableEntry_table_ne hk] at hvi
        exact h.divFour i hvi
    · intro i hi hvi
      by_cases hk : i = tI
      · subst hk
        rw [htbl]
        exact hst
      · rw [glusInitMemoryTableEntry_table_ne hk]
        rw [glusInitMemoryTableEntry_table_ne hk] at hvi
        exact h.startPos i hi hvi
    · intro i hvi
      by_cases hk : i = tI
      · subst hk
        rw [htbl]
        exact hb
      · rw [glusInitMemoryTableEntry_table_ne hk]
        rw [glusInitMemoryTableEntry_table_ne hk] at hvi
        exact h.bounded i hvi

theorem grantedUpdate_inv {base : Nat} {s1 : GlusState} (h1 : Inv base s1)
    (t alen : Nat) (hvt : (s1.memoryTable t).valid = true)
    (h4 : 4 ∣ alen) (hle : alen ≤ (s1.memoryTable t).length) :
    Inv base (grantEntry s1 t alen) := by
  unfold grantEntry
  refine ⟨h1.memZero, h1.entriesPos, ?_, ?_, ?_, ?_, ?_, ?_⟩
  · intro i
    by_cases hk : i = t
    · subst hk
      simp only [Function.update_same]
      exact h1.ptrBase i
    · simp only [Function.update_noteq hk]
      exact h1.ptrBase i
  · by_cases hk : (0 : Nat) = t
    · rw [← hk]
      simp only [Function.update_same, ← hk]
      exact h1.validZero
    · simp only [Function.update_noteq hk]
      exact h1.validZero
  · by_cases hk : (0 : Nat) = t
    · rw [← hk]
      simp only [Function.update_same, ← hk]
      exact h1.startZero
    · simp only [Function.update_noteq hk]
      exact h1.startZero
  · intro i hvi
    by_cases hk : i = t
    · subst hk
      simp only [Function.update_same]
      exact h4
    · simp only [Function.update_noteq hk] at hvi ⊢
      exact h1.divFour i hvi
  · intro i hi hvi
    by_cases hk : i = t
    · subst hk
      simp only [Function.update_same] at hvi ⊢
      exact h1.startPos i hi hvt
    · simp only [Function.update_noteq hk] at hvi ⊢
      exact h1.startPos i hi hvi
  · intro i hvi
    by_cases hk : i = t
    · subst hk
      simp only [Function.update_same]
      show (s1.memoryTable i).startIndex + alen / 4 ≤ GLUS_MEMORY_SIZE
      have hd : alen / 4 ≤ (s1.memoryTable i).length / 4 :=
        Nat.div_le_div_right hle
      have hbd := h1.bounded i hvt
      omega
    · simp only [Function.update_noteq hk] at hvi ⊢
      exact h1.bounded i hvi

theorem mallocGrant_inv {base : Nat} {s : GlusState} {size t : Nat}
    (h : Inv base s) (hsz : 1 ≤ size) (hguard : ¬ roundAlloc size < size)
    (hvt : (s.memoryTable t).valid = true)
    (hlen : size ≤ (s.memoryTable t).length) :
    Inv base (mallocGrant s size t).2 := by
  have hW := w64_eq
  have hM := memSize_eq
  obtain ⟨lt4, hlt4⟩ := h.divFour t hvt
  have hbt := h.bounded t hvt
  have hdivt : (s.memoryTable t).length / 4 = lt4 := by
    rw [hlt4]
    exact Nat.mul_div_cancel_left lt4 (by norm_num)
  have hlen4M : (s.memoryTable t).length ≤ 4 * GLUS_MEMORY_SIZE := by omega
  have hal : roundAlloc size ≤ (s.memoryTable t).length :=
    roundAlloc_le hguard (h.divFour t hvt) hlen hlen4M
  obtain ⟨a4, ha4e⟩ := roundAlloc_dvd size
  have hdiva : roundAlloc size / 4 = a4 := by
    rw [ha4e]
    exact Nat.mul_div_cancel_left a4 (by norm_num)
  have ha_ge4 := roundAlloc_ge_four hsz hguard
  have hoi : 1 ≤ (match glusFindMemoryTableEntry s with
      | some found => found
      | none => t + 1) := by
    cases hf : glusFindMemoryTableEntry s with
    | none => exact Nat.le_add_left 1 t
    | some f =>
      have hpred := List.find?_some (show (List.range (tableLimit s)).find?
        (fun tableIndex => !(s.memoryTable tableIndex).valid) = some f from hf)
      simp only [Bool.not_eq_eq_eq_not, Bool.not_true] at hpred
      rcases Nat.eq_zero_or_pos f with rfl | hfpos
      · rw [h.validZero] at hpred
        exact absurd hpred (by simp)
      · exact hfpos
  have hoi_ne : (match glusFindMemoryTableEntry s with
      | some found => found
      | none => t + 1) ≠ t := by
    cases hf : glusFindMemoryTableEntry s with
    | none => exact Nat.succ_ne_self t
    | some f =>
      have hpred := List.find?_some (show (List.range (tableLimit s)).find?
        (fun tableIndex => !(s.memoryTable tableIndex).valid) = some f from hf)
      simp only [Bool.not_eq_eq_eq_not, Bool.not_true] at hpred
      intro hft
      have hft2 : f = t := hft
      rw [hft2, hvt] at hpred
      exact absurd hpred (by simp)
  have hstmod : (((s.memoryTable t).startIndex + roundAlloc size / 4) % W64) =
      (s.memoryTable t).startIndex + roundAlloc size / 4 := by
    apply Nat.mod_eq_of_lt
    omega
  have hsub : sub64 (s.memoryTable t).length (roundAlloc size) =
      (s.memoryTable t).length - roundAlloc size := by
    rw [sub64, if_pos hal]
  have hsubdiv : ((s.memoryTable t).length - roundAlloc size) / 4 = lt4 - a4 := by
    rw [hlt4, ha4e, show 4 * lt4 - 4 * a4 = 4 * (lt4 - a4) by omega]
    exact Nat.mul_div_cancel_left _ (by norm_num)
  have h1 : Inv base (glusInitMemoryTableEntry s
      (match glusFindMemoryTableEntry s with
        | some found => found
        | none => t + 1)
      (((s.memoryTable t).startIndex + roundAlloc size / 4) % W64)
      (sub64 (s.memoryTable t).length (roundAlloc size))).1 := by
    refine glusInitMemoryTableEntry_inv h hoi ?_ ?_ ?_
    · rw [hstmod]
      omega
    · rw [hsub, hlt4, ha4e]
      exact ⟨lt4 - a4, by omega⟩
    · rw [hstmod, hsub, hsubdiv]
      omega
  have hs1t : (glusInitMemoryTableEntry s
      (match glusFindMemoryTableEntry s with
        | some found => found
        | none => t + 1)
      (((s.memoryTable t).startIndex + roundAlloc size / 4) % W64)
      (sub64 (s.memoryTable t).length (roundAlloc size))).1.memoryTable t =
      s.memoryTable t := glusInitMemoryTableEntry_table_ne (Ne.symm hoi_ne)
  refine grantedUpdate_inv h1 t _ ?_ ?_ ?_
  · rw [hs1t]
    exact hvt
  · split
    · exact roundAlloc_dvd size
    · rw [hs1t]
      exact h.divFour t hvt
  · split
    · rw [hs1t]
      exact hal
    · exact Nat.le_refl _

theorem glusInternalMalloc_inv {base : Nat} {s : GlusState} {size : Nat}
    (h : Inv base s) (hsz : 1 ≤ size) :
    Inv base (glusInternalMalloc s size).2 := by
  simp only [glusInternalMalloc]
  split
  · exact h
  · rename_i hguard
    split
    · exact h
    · rename_i t hscan
      have hpred := List.find?_some (show (List.range (tableLimit s)).find?
        (fun tableIndex => (s.memoryTable tableIndex).valid &&
          (s.memoryTable tableIndex).free &&
          decide (size ≤ (s.memoryTable tableIndex).length)) = some t from hscan)
      simp only [Bool.and_eq_true, decide_eq_true_eq] at hpred
      exact mallocGrant_inv h hsz hguard hpred.1.1 hpred.2

theorem glusMalloc_inv {base : Nat} {s : GlusState} (h : Inv base s)
    (size : Nat) : Inv base (glusMalloc s size).2 := by
  simp only [glusMalloc]
  split
  · exact h
  · rename_i hsz
    have hsz1 : 1 ≤ size := Nat.one_le_iff_ne_zero.mpr hsz
    split
    · exact glusInternalMalloc_inv
        (glusGarbageCollect_inv (glusInternalMalloc_inv h hsz1)) hsz1
    · exact glusInternalMalloc_inv h hsz1

theorem initialState_inv (base : Nat) : Inv base (initialState base) := by
  have hM := memSize_eq
  refine ⟨fun i => rfl, Nat.le_refl 1, ?_, ?_, ?_, ?_, ?_, ?_⟩
  · intro i
    by_cases hi : i = 0
    · subst hi
      exact Or.inr (by simp [initialState])
    · exact Or.inl (by simp [initialState, hi, zeroEntry])
  · simp [initialState]
  · simp [initialState]
  · intro i hvi
    by_cases hi : i = 0
    · subst hi
      show (4 : Nat) ∣ GLUS_MEMORY_SIZE
      exact ⟨1048576, by rw [hM]⟩
    · simp [initialState, hi, zeroEntry] at hvi
  · intro i hi hvi
    simp [initialState, hi, zeroEntry] at hvi
  · intro i hvi
    by_cases hi : i = 0
    · subst hi
      show 0 + GLUS_MEMORY_SIZE / 4 ≤ GLUS_MEMORY_SIZE
      omega
    · simp [initialState, hi, zeroEntry] at hvi

theorem reachable_inv {base : Nat} {s : GlusState} (h : Reachable base s) :
    Inv base s := by
  induction h with
  | init => exact initialState_inv base
  | mallocStep size hr ih => exact glusMalloc_inv ih size
  | freeStep pointer hr ih => exact glusFree_inv ih pointer
  | collectStep hr ih => exact glusGarbageCollect_inv ih

/-! ## First-fit scan, release, and rounding facts -/

theorem find?_congr_pred {α : Type} :
    ∀ (l : List α) (p q : α → Bool), (∀ a ∈ l, p a = q a) →
      l.find? p = l.find? q := by
  intro l
  induction l with
  | nil => intro p q _; rfl
  | cons a rest ih =>
    intro p q h
    have ha := h a (List.mem_cons_self a rest)
    cases hpa : p a with
    | true =>
      rw [List.find?_cons_of_pos _ hpa, List.find?_cons_of_pos _ (ha ▸ hpa)]
    | false =>
      rw [List.find?_cons_of_neg _ (by simp [hpa]),
        List.find?_cons_of_neg _ (by simp [← ha, hpa])]
      exact ih p q fun x hx => h x (List.mem_cons_of_mem a hx)

theorem mallocScan_eq_rounded {base : Nat} {s : GlusState} (h : Inv base s)
    (size : Nat) (hguard : ¬ roundAlloc size < size) :
    mallocScan s size = mallocScanRounded s size := by
  unfold mallocScan mallocScanRounded
  apply find?_congr_pred
  intro i hi
  cases hv : (s.memoryTable i).valid with
  | false => simp [hv]
  | true =>
    cases hf : (s.memoryTable i).free with
    | false => simp [hv, hf]
    | true =>
      simp only [hv, hf, Bool.true_and]
      have hM := memSize_eq
      obtain ⟨l4, hl4⟩ := h.divFour i hv
      have hb := h.bounded i hv
      have hd : (s.memoryTable i).length / 4 = l4 := by
        rw [hl4]
        exact Nat.mul_div_cancel_left _ (by norm_num)
      have hlen4M : (s.memoryTable i).length ≤ 4 * GLUS_MEMORY_SIZE := by omega
      rw [decide_eq_decide]
      constructor
      · intro hsz
        exact roundAlloc_le hguard (h.divFour i hv) hsz hlen4M
      · intro hra
        exact le_trans (roundAlloc_ge hguard) hra

theorem glusFree_no_match (s : GlusState) (p : Nat)
    (h : ∀ i, i < tableLimit s → (s.memoryTable i).pointer ≠ p) :
    glusFree s p = s := by
  by_cases hp : p = 0
  · simp [glusFree, hp]
  · simp only [glusFree, if_neg hp]
    have hnone : (List.range (tableLimit s)).find?
        (fun tableIndex => decide ((s.memoryTable tableIndex).pointer = p)) =
          none := by
      rw [List.find?_eq_none]
      intro x hx
      simp only [decide_eq_true_eq]
      exact h x (List.mem_range.mp hx)
    rw [hnone]

theorem tableLimit_pos {base : Nat} {s : GlusState} (h : Inv base s) :
    1 ≤ tableLimit s := by
  have h1 := h.entriesPos
  have h2 : (1 : Nat) ≤ GLUS_MEMORY_TABLE_ENTRIES := by
    norm_num [GLUS_MEMORY_TABLE_ENTRIES]
  exact le_min h1 h2

theorem findEntry_ne_valid {s : GlusState} {t : Nat}
    (hvt : (s.memoryTable t).valid = true) :
    (match glusFindMemoryTableEntry s with
      | some found => found
      | none => t + 1) ≠ t := by
  cases hf : glusFindMemoryTableEntry s with
  | none => exact Nat.succ_ne_self t
  | some f =>
    have hpred := List.find?_some (show (List.range (tableLimit s)).find?
      (fun tableIndex => !(s.memoryTable tableIndex).valid) = some f from hf)
    simp only [Bool.not_eq_eq_eq_not, Bool.not_true] at hpred
    intro hft
    have hft2 : f = t := hft
    rw [hft2, hvt] at hpred
    exact absurd hpred (by simp)

theorem mallocGrant_granted_length {s : GlusState} {size t : Nat}
    (hguard : ¬ roundAlloc size < size)
    (hvt : (s.memoryTable t).valid = true)
    (hlen : size ≤ (s.memoryTable t).length) :
    size ≤ ((mallocGrant s size t).2.memoryTable t).length := by
  have hne := findEntry_ne_valid hvt
  simp only [mallocGrant, grantEntry, Function.update_same]
  split
  · exact roundAlloc_ge hguard
  · rw [glusInitMemoryTableEntry_table_ne (Ne.symm hne)]
    exact hlen

theorem glusInternalMalloc_overflow {s : GlusState} {size : Nat}
    (h : roundAlloc size < size) : glusInternalMalloc s size = (0, s) := by
  simp [glusInternalMalloc, h]

theorem glusMalloc_overflow {s : GlusState} {size : Nat}
    (h : roundAlloc size < size) :
    glusMalloc s size = (0, glusGarbageCollect s) := by
  have hsz : size ≠ 0 := by
    rintro rfl
    simp [roundAlloc] at h
  simp [glusMalloc, hsz, glusInternalMalloc_overflow h]

/-! ## Claim theorems -/

/-- C1: the claim fails on the code.  From the initial state, `malloc(100)`
succeeds (returning the base pointer 4), leaving more than 4 MB of free
capacity, yet the next `malloc(100)` returns null: the granted entry's
stored pointer is the arena word `g_memory[25]` (zero), because line 111
stores the arena *value* instead of the element's address. -/
theorem c1_malloc_null_despite_capacity :
    (glusMalloc (initialState 4) 100).1 = 4 ∧
    100 ≤ totalFreeLength afterFirstMalloc ∧
    (glusMalloc afterFirstMalloc 100).1 = 0 := by
  decide

/-- C2: the claim fails on the code.  The remainder entry created by
`malloc(100)` from the initial state (index 1, `startIndex` 25) stores as
its pointer the arena word value at index 25 (0), not the spec-side address
`base + 4 * startIndex = 104`. -/
theorem c2_pointer_is_arena_value :
    (afterFirstMalloc.memoryTable 1).valid = true ∧
    (afterFirstMalloc.memoryTable 1).startIndex = 25 ∧
    (afterFirstMalloc.memoryTable 1).pointer = afterFirstMalloc.memory 25 ∧
    (afterFirstMalloc.memoryTable 1).pointer ≠
      specBlockAddress 4 (afterFirstMalloc.memoryTable 1) := by
  decide

/-- C3: on every reachable state, the allocator's first-fit scan (which the
code writes as `length >= size` with the unrounded size, line 184) grants
exactly the block the specification describes: the first Free entry with
`length >= roundedSize`.  The two scans agree because every valid entry's
length is a multiple of the word size 4 in reachable states. -/
theorem c3_first_fit_uses_rounded_size (base : Nat) (s : GlusState)
    (size : Nat) (h : Reachable base s) :
    glusInternalMalloc s size = glusInternalMallocRounded s size := by
  by_cases hguard : roundAlloc size < size
  · simp [glusInternalMalloc, glusInternalMallocRounded, hguard]
  · simp only [glusInternalMalloc, glusInternalMallocRounded, if_neg hguard]
    rw [mallocScan_eq_rounded (reachable_inv h) size hguard]

/-- Witness for C3 at the initial state and request size 5. -/
theorem c3_witness :
    glusInternalMalloc (initialState 4) 5 =
      glusInternalMallocRounded (initialState 4) 5 :=
  c3_first_fit_uses_rounded_size 4 (initialState 4) 5 Reachable.init

/-- C4: the claim fails on the code.  In `fullTableState` the table is at
capacity (1024 entries, none Unused) and the chosen free block (index 0,
8 bytes) has a positive remainder; the claim says the block is granted in
full with no other entry modified, but the code overwrites live entry 1
(previously Allocated) with the split remainder and grants only the rounded
4 bytes. -/
theorem c4_table_exhaustion_overwrites_live_entry :
    (∀ i, i < GLUS_MEMORY_TABLE_ENTRIES →
      (fullTableState.memoryTable i).valid = true) ∧
    fullTableState.memoryTableEntries = GLUS_MEMORY_TABLE_ENTRIES ∧
    mallocScan fullTableState 4 = some 0 ∧
    (fullTableState.memoryTable 0).length = 8 ∧
    (fullTableState.memoryTable 1).free = false ∧
    ((glusInternalMalloc fullTableState 4).2.memoryTable 0).length = 4 ∧
    ((glusInternalMalloc fullTableState 4).2.memoryTable 1).free = true ∧
    ((glusInternalMalloc fullTableState 4).2.memoryTable 1).startIndex = 1 := by
  decide

/-- C5: the claim fails on the code.  Byte 200 of the arena is covered by a
valid block in the initial state, but after the reachable sequence
`malloc(100); free(base); malloc(8)` (state `clobberState`) no
Allocated-or-Free block covers it: the second malloc overwrote live entry 1.
Moreover even initially the single Free block covers only bytes
`[0, GLUS_MEMORY_SIZE)`, a quarter of the `4 * GLUS_MEMORY_SIZE`-byte
arena. -/
theorem c5_tiling_gap_after_clobber :
    coversByte (initialState 4) 200 = true ∧
    coversByte clobberState 200 = false ∧
    coversByte (initialState 4) GLUS_MEMORY_SIZE = false := by
  decide

/-- C6: on every reachable state, `free(null)` is a no-op, and `free` of a
non-null pointer that does not equal the derived address
`base + 4 * startIndex` of any valid tracked block leaves the state
entirely unchanged. -/
theorem c6_free_null_or_foreign_noop (base : Nat) (s : GlusState) (p : Nat)
    (hr : Reachable base s)
    (hp : p = 0 ∨ (p ≠ 0 ∧ ∀ i, i < tableLimit s →
      (s.memoryTable i).valid = true →
      p ≠ base + 4 * (s.memoryTable i).startIndex)) :
    glusFree s p = s := by
  rcases hp with rfl | ⟨hp0, haddr⟩
  · simp [glusFree]
  · have hinv := reachable_inv hr
    apply glusFree_no_match
    intro i hi
    rcases hinv.ptrBase i with h0 | hb
    · rw [h0]
      exact Ne.symm hp0
    · rw [hb]
      have hlim := tableLimit_pos hinv
      have haddr0 := haddr 0 (by omega) hinv.validZero
      rw [hinv.startZero] at haddr0
      have hpb : p ≠ base := by simpa using haddr0
      exact Ne.symm hpb

/-- Witness for C6: freeing the foreign pointer 3 in the initial state. -/
theorem c6_witness : glusFree (initialState 4) 3 = initialState 4 :=
  c6_free_null_or_foreign_noop 4 (initialState 4) 3 Reachable.init
    (Or.inr ⟨by decide, by decide⟩)

/-- C7: after `glusGarbageCollect` returns, no two valid free blocks are
address-adjacent (in the code's own adjacency arithmetic, line 150), and
running the collector again immediately produces exactly the same state. -/
theorem c7_collect_fixed_point_and_idem (s : GlusState) :
    (∀ i, i < tableLimit (glusGarbageCollect s) →
      ((glusGarbageCollect s).memoryTable i).valid = true →
      ((glusGarbageCollect s).memoryTable i).free = true →
      ∀ j, j < tableLimit (glusGarbageCollect s) → j ≠ i →
        ((glusGarbageCollect s).memoryTable j).valid = true →
        ((glusGarbageCollect s).memoryTable j).free = true →
        ((((glusGarbageCollect s).memoryTable i).startIndex +
          ((glusGarbageCollect s).memoryTable i).length / 4) % W64) ≠
          ((glusGarbageCollect s).memoryTable j).startIndex) ∧
    glusGarbageCollect (glusGarbageCollect s) = glusGarbageCollect s :=
  ⟨gcPass_no_adjacent (glusGarbageCollect s) (gcPass_gc s), gc_idem s⟩

/-- Witness for C7 on a state with two adjacent free blocks. -/
theorem c7_witness :
    glusGarbageCollect (glusGarbageCollect adjacentFreeState) =
      glusGarbageCollect adjacentFreeState :=
  (c7_collect_fixed_point_and_idem adjacentFreeState).2

/-- C8: `malloc(0)` returns null and leaves the whole state (every table
entry and the live count) unchanged; the return value is the same null as
for allocation failure. -/
theorem c8_malloc_zero_noop (s : GlusState) : glusMalloc s 0 = (0, s) := rfl

/-- C9 (amended): rounding overflow makes `malloc` return null without
granting anything, but the failed first attempt still triggers the one-shot
collection pass, so `malloc` returns exactly `(0, glusGarbageCollect s)`;
and whenever the scan grants an entry, its tracked length is at least the
requested size. -/
theorem c9_overflow_null_after_collect (s : GlusState) (size : Nat) :
    (roundAlloc size < size → glusMalloc s size = (0, glusGarbageCollect s)) ∧
    (¬ roundAlloc size < size → ∀ t, mallocScan s size = some t →
      size ≤ ((glusInternalMalloc s size).2.memoryTable t).length) := by
  constructor
  · intro h
    exact glusMalloc_overflow h
  · intro hguard t hscan
    have hpred := List.find?_some (show (List.range (tableLimit s)).find?
      (fun tableIndex => (s.memoryTable tableIndex).valid &&
        (s.memoryTable tableIndex).free &&
        decide (size ≤ (s.memoryTable tableIndex).length)) = some t from hscan)
    simp only [Bool.and_eq_true, decide_eq_true_eq] at hpred
    have hgl := mallocGrant_granted_length hguard hpred.1.1 hpred.2
    simp only [glusInternalMalloc, if_neg hguard, hscan]
    exact hgl

/-- Witness for C9 at the initial state and the overflowing size
`2 ^ 64 - 1`. -/
theorem c9_witness :
    glusMalloc (initialState 4) (2 ^ 64 - 1) =
      (0, glusGarbageCollect (initialState 4)) :=
  (c9_overflow_null_after_collect (initialState 4) (2 ^ 64 - 1)).1 (by decide)

/-- C9 counterexample to the claim as stated: on the reachable state
`adjacentFreeState`, the overflowing request `2 ^ 64 - 1` makes `malloc`
return null but does modify the table: the collection pass it triggers
merges the two adjacent free blocks, invalidating entry 1. -/
theorem c9_counterexample :
    roundAlloc (2 ^ 64 - 1) < 2 ^ 64 - 1 ∧
    (glusMalloc adjacentFreeState (2 ^ 64 - 1)).1 = 0 ∧
    (adjacentFreeState.memoryTable 1).valid = true ∧
    ((glusMalloc adjacentFreeState (2 ^ 64 - 1)).2.memoryTable 1).valid =
      false := by
  decide

/-- C10: no public operation writes the arena storage: `glusMalloc` (with
its internal allocate and collector pass), `glusInternalMalloc`,
`glusGarbageCollect` and `glusFree` all leave `g_memory` unchanged. -/
theorem c10_arena_never_written (s : GlusState) (size pointer : Nat) :
    (glusMalloc s size).2.memory = s.memory ∧
    (glusInternalMalloc s size).2.memory = s.memory ∧
    (glusGarbageCollect s).memory = s.memory ∧
    (glusFree s pointer).memory = s.memory :=
  ⟨glusMalloc_memory s size, glusInternalMalloc_memory s size,
    glusGarbageCollect_memory s, glusFree_memory s pointer⟩

end GLUS
